import Mathlib

/-!
# fstree: a verification development

Shallow embedding of `fstree.go` (a `tree`-like directory lister written in Go).

* The filesystem is a finite tree of `Entry` values.  `ioutil.ReadDir` of a
  directory is the `entries` field of its `Entry` (in listing order); `ReadDir`
  of something that is not a readable directory fails, the error is dropped by
  the source (`files, _ := ...`), and the listing is empty.
* `treeprint.Tree` (an external library) is a mutable n-ary tree of nodes
  carrying an optional meta value and a value.  Here a node also remembers the
  call that created it (`AddBranch`/`New` or `AddNode`), so that "branch" and
  "leaf" nodes can be told apart.
* `filepath.Base` and `filepath.Join` come from the Go standard library; the
  traversal takes them as a parameter `fp : Filepath`.  `unixFilepath` is the
  Unix behaviour of both.
* The global counters `directoriesCount`, `filesCount` and the text written to
  standard output form the explicit state `State`.  Go's `int` is modelled by
  `Int`: a counter or a depth would need at least `2^63` directory entries or
  nesting levels to wrap around.
-/

namespace Fstree

/-! ## Data model -/

/-- A filesystem object as `ioutil.ReadDir` / `os.Stat` report it: its name,
its mode bits and, for a directory, its listing. -/
inductive Entry where
  | file (name : String) (mode : Nat)
  | dir (name : String) (mode : Nat) (entries : List Entry)

/-- The result of `f.Name()`. -/
def Entry.Name : Entry → String
  | .file n _ => n
  | .dir n _ _ => n

/-- The result of `f.Mode()` (and of `os.Stat(path).Mode()`). -/
def Entry.Mode : Entry → Nat
  | .file _ m => m
  | .dir _ m _ => m

/-- The result of `f.IsDir()`. -/
def Entry.IsDir : Entry → Bool
  | .file _ _ => false
  | .dir _ _ _ => true

/-- The kind of a tree node: the call that created it. -/
inductive Kind where
  | branch
  | leaf
  deriving DecidableEq, Repr

/-- A `treeprint` node: kind, meta value, value and child nodes. -/
inductive Tree where
  | node (kind : Kind) (meta : Option Nat) (value : String) (nodes : List Tree)

/-- The child nodes of a tree node. -/
def Tree.Nodes : Tree → List Tree
  | .node _ _ _ ns => ns

/-- The kind of a tree node. -/
def Tree.kind : Tree → Kind
  | .node k _ _ _ => k

/-- The value of a tree node. -/
def Tree.Value : Tree → String
  | .node _ _ v _ => v

/-- The meta value of a tree node. -/
def Tree.Meta : Tree → Option Nat
  | .node _ m _ _ => m

/-- The tree made by `treeprint.New()`: a root node with value ".". -/
def Tree.New : Tree := .node .branch none "." []

/-- Appends a child to a node (the `n.Nodes = append(n.Nodes, ...)` of every
`Add...` method). -/
def Tree.push : Tree → Tree → Tree
  | .node k m v ns, c => .node k m v (ns ++ [c])

/-- The effect of `tree.AddNode(v)` on `tree`. -/
def Tree.AddNode (t : Tree) (v : String) : Tree :=
  t.push (.node .leaf none v [])

/-- The effect of `tree.AddMetaNode(meta, v)` on `tree`. -/
def Tree.AddMetaNode (t : Tree) (m : Nat) (v : String) : Tree :=
  t.push (.node .leaf (some m) v [])

/-- The fresh node returned by `tree.AddBranch(v)`. -/
def Tree.newBranch (v : String) : Tree := .node .branch none v []

/-- The fresh node returned by `tree.AddMetaBranch(meta, v)`. -/
def Tree.newMetaBranch (m : Nat) (v : String) : Tree := .node .branch (some m) v []

/-- The two functions of Go's `path/filepath` that the traversal calls. -/
structure Filepath where
  Base : String → String
  Join : String → String → String

/-- The command line flags read by the traversal. -/
structure Flags where
  flagPrintAllFiles : Bool
  flagDirsOnly : Bool
  flagFullPathPrefix : Bool
  flagFileLimit : Int
  flagDirLimit : Int
  flagPermissions : Bool

/-- The default values of the flags, as declared in the `var` block. -/
def Flags.default : Flags :=
  { flagPrintAllFiles := false, flagDirsOnly := false, flagFullPathPrefix := false,
    flagFileLimit := -1, flagDirLimit := -1, flagPermissions := false }

/-- The global counters and the text printed on standard output. -/
structure State where
  directoriesCount : Int
  filesCount : Int
  stdout : List String
  deriving DecidableEq, Repr

/-- The initial state: both counters are 0 and nothing has been printed. -/
def State.init : State := { directoriesCount := 0, filesCount := 0, stdout := [] }

/-- The result of `strings.HasPrefix(s, ".")`. -/
def hasDotPrefix (s : String) : Bool :=
  match s.data with
  | c :: _ => c == '.'
  | [] => false

/-- The line printed when the entry-count limit stops the listing of ".". -/
def filelimitMessage (n : Nat) : String :=
  "fstree: [ " ++ toString n ++ " entries exceeds filelimit, not opening dir]\n"

/-! ## The traversal -/

mutual
/-- The function `traverseFilesystem(currentPath, root, tree, depth)`.  The `Entry`
argument is the filesystem object at `currentPath`.  The result is the node `tree` after the
call together with the new state; when `root` is false the branch added to
`tree` is filled by the loop and then attached. -/
def traverseFilesystem (fp : Filepath) (fl : Flags) (currentPath : String) :
    Entry → Bool → Tree → Int → State → Tree × State
  | .file _ mode, root, tree, _, st =>
    if !root then
      let outputName := if fl.flagFullPathPrefix then currentPath else fp.Base currentPath
      let branch :=
        if fl.flagPermissions then Tree.newMetaBranch mode outputName
        else Tree.newBranch outputName
      (tree.push branch, st)
    else (tree, st)
  | .dir _ mode files, root, tree, depth, st =>
    if !root then
      let outputName := if fl.flagFullPathPrefix then currentPath else fp.Base currentPath
      let branch :=
        if fl.flagPermissions then Tree.newMetaBranch mode outputName
        else Tree.newBranch outputName
      let r := rangeFiles fp fl currentPath depth files.length files branch st
      (tree.push r.1, r.2)
    else
      rangeFiles fp fl currentPath depth files.length files tree st
/-- The loop `for _, f := range files` of `traverseFilesystem`, run over the
entries that are left; `len` is `len(files)`. -/
def rangeFiles (fp : Filepath) (fl : Flags) (currentPath : String) (depth : Int) (len : Nat) :
    List Entry → Tree → State → Tree × State
  | [], tree, st => (tree, st)
  | f :: rest, tree, st =>
    if depth = fl.flagDirLimit then
      rangeFiles fp fl currentPath depth len rest tree st
    else if fl.flagFileLimit ≥ 0 ∧ (len : Int) ≥ fl.flagFileLimit then
      if currentPath = "." then
        (tree, { st with stdout := st.stdout ++ [filelimitMessage len] })
      else (tree, st)
    else if !fl.flagPrintAllFiles && hasDotPrefix f.Name then
      rangeFiles fp fl currentPath depth len rest tree st
    else
      let fullPath := fp.Join currentPath f.Name
      match f with
      | .dir n m es =>
        let r := traverseFilesystem fp fl fullPath (.dir n m es) false tree (depth + 1)
          { st with directoriesCount := st.directoriesCount + 1 }
        rangeFiles fp fl currentPath depth len rest r.1 r.2
      | .file n m =>
        let st1 := { st with filesCount := st.filesCount + 1 }
        if fl.flagDirsOnly then
          rangeFiles fp fl currentPath depth len rest tree st1
        else
          let outputName := if fl.flagFullPathPrefix then fullPath else n
          if fl.flagPermissions then
            rangeFiles fp fl currentPath depth len rest (tree.AddMetaNode m outputName) st1
          else
            rangeFiles fp fl currentPath depth len rest (tree.AddNode outputName) st1
end

/-! ## The summary line -/

/-- The result of `strconv.Itoa(i)`: the decimal rendering of `i`. -/
def Itoa (i : Int) : String := toString i

/-- The effect of `buf.WriteString(s)` on the content of a `bytes.Buffer`. -/
def WriteString (buf : String) (s : String) : String := buf ++ s

/-- The function `printFileSystemStats()`: the returned string and the state it
leaves. -/
def printFileSystemStats (st : State) : String × State :=
  let buf := ""
  let buf := WriteString buf (Itoa st.directoriesCount)
  let buf :=
    if st.directoriesCount = 1 then WriteString buf " directory, "
    else WriteString buf " directories, "
  let buf := WriteString buf (Itoa st.filesCount)
  let buf :=
    if st.filesCount = 1 then WriteString buf " file"
    else WriteString buf " files"
  (buf, st)

/-! ## The entry point -/

/-- The flags that only `main` reads. -/
structure MainFlags where
  flagVersion : Bool
  flagWriteToFile : String

/-- What `main` observes of its environment: the positional arguments, the
filesystem object behind a path (`none` when `os.Stat` reports that it does
not exist), the rendering of a tree by `treeprint`, and whether creating the
output file and the two writes to it succeed. -/
structure Env where
  args : List String
  stat : String → Option Entry
  render : Tree → String
  createOk : Bool
  writeTreeOk : Bool
  writeStatsOk : Bool

/-- What a run of `main` leaves behind: the text on standard output, the text
written to the output file (if one was created) and the exit status. -/
structure Outcome where
  stdout : List String
  file : Option String
  exit : Nat
  deriving DecidableEq, Repr

/-- The constant `version`. -/
def version : String := "1.0"

/-- The function `main()` after `flag.Parse()`. -/
def main (fp : Filepath) (fl : Flags) (mf : MainFlags) (env : Env) : Outcome :=
  if mf.flagVersion then
    { stdout := ["fstree: " ++ version ++ "\n"], file := none, exit := 0 }
  else if fl.flagDirLimit = 0 then
    { stdout := ["fstree: Invalid level, must be greater than 0.\n"], file := none, exit := 1 }
  else
    let currentPath :=
      match env.args with
      | [] => "."
      | a :: _ => a
    match env.stat currentPath with
    | none => { stdout := [currentPath ++ " does not exist.\n"], file := none, exit := 1 }
    | some self =>
      let r := traverseFilesystem fp fl currentPath self true Tree.New 0 State.init
      let tree := r.1
      let st := r.2
      if mf.flagWriteToFile ≠ "" then
        if !env.createOk then
          { stdout := st.stdout ++ ["Cannot create file: " ++ mf.flagWriteToFile ++ "\n"],
            file := none, exit := 1 }
        else if !env.writeTreeOk then
          { stdout := st.stdout ++ ["Cannot write to file: " ++ mf.flagWriteToFile ++ "\n"],
            file := some "", exit := 1 }
        else if !env.writeStatsOk then
          { stdout := st.stdout ++ ["Cannot write to file: " ++ mf.flagWriteToFile ++ "\n"],
            file := some (env.render tree), exit := 1 }
        else
          { stdout := st.stdout,
            file := some (env.render tree ++ (printFileSystemStats st).1), exit := 0 }
      else
        { stdout := st.stdout ++ [env.render tree ++ "\n", (printFileSystemStats st).1 ++ "\n"],
          file := none, exit := 0 }

/-! ## Unix `path/filepath` -/

/-- Splits a path at every '/'. -/
def splitSlash : List Char → List (List Char)
  | [] => [[]]
  | c :: cs =>
    if c = '/' then [] :: splitSlash cs
    else
      match splitSlash cs with
      | [] => [[c]]
      | x :: xs => (c :: x) :: xs

/-- Joins path elements with '/'. -/
def joinSlash : List (List Char) → List Char
  | [] => []
  | [x] => x
  | x :: y :: ys => x ++ '/' :: joinSlash (y :: ys)

/-- One path element processed by `Clean`; `stack` holds the elements kept so
far, the last one first.  Empty and "." elements are dropped, ".." removes the
element before it, or is kept when there is none to remove and the path is not
rooted. -/
def cleanStep (rooted : Bool) (stack : List (List Char)) (c : List Char) : List (List Char) :=
  if c = [] ∨ c = ['.'] then stack
  else if c = ['.', '.'] then
    match stack with
    | top :: rest => if top = ['.', '.'] then c :: stack else rest
    | [] => if rooted then [] else [c]
  else c :: stack

/-- The function `filepath.Clean` on Unix. -/
def cleanChars (path : List Char) : List Char :=
  match path with
  | [] => ['.']
  | c :: _ =>
    let rooted : Bool := c = '/'
    let stack := (splitSlash path).foldl (cleanStep rooted) []
    let body := joinSlash stack.reverse
    let out := if rooted then '/' :: body else body
    if out = [] then ['.'] else out

/-- The function `filepath.Base` on Unix. -/
def baseChars (path : List Char) : List Char :=
  if path = [] then ['.']
  else
    let stripped := path.reverse.dropWhile (fun c => c = '/')
    let last := stripped.takeWhile (fun c => c ≠ '/')
    if last = [] then ['/'] else last.reverse

/-- Go's `path/filepath` on Unix: `Base`, and `Join` of two elements. -/
def unixFilepath : Filepath where
  Base := fun p => String.mk (baseChars p.data)
  Join := fun a b =>
    if a ≠ "" then String.mk (cleanChars (a.data ++ '/' :: b.data))
    else if b ≠ "" then String.mk (cleanChars b.data)
    else ""

/-- A name that a directory listing can hold: not empty, without '/', and
neither "." nor "..". -/
def ValidName (n : String) : Prop :=
  n.data ≠ [] ∧ '/' ∉ n.data ∧ n.data ≠ ['.'] ∧ n.data ≠ ['.', '.']

instance (n : String) : Decidable (ValidName n) := by
  unfold ValidName; infer_instance

mutual
/-- Whether every name below an entry (the entry's own name excluded) is valid. -/
def Entry.validBelow : Entry → Bool
  | .file _ _ => true
  | .dir _ _ es => validNames es
/-- Whether every name in a listing, and below it, is valid. -/
def validNames : List Entry → Bool
  | [] => true
  | e :: es => decide (ValidName e.Name) && e.validBelow && validNames es
end

/-! ## Functions on trees -/

mutual
/-- The number of branch nodes below a node. -/
def Tree.countBranches : Tree → Nat
  | .node _ _ _ ns => countBranchesList ns
/-- The number of branch nodes in a list of nodes and below them. -/
def countBranchesList : List Tree → Nat
  | [] => 0
  | t :: ts => (if t.kind = .branch then 1 else 0) + t.countBranches + countBranchesList ts
end

mutual
/-- The number of leaf nodes below a node. -/
def Tree.countLeaves : Tree → Nat
  | .node _ _ _ ns => countLeavesList ns
/-- The number of leaf nodes in a list of nodes and below them. -/
def countLeavesList : List Tree → Nat
  | [] => 0
  | t :: ts => (if t.kind = .leaf then 1 else 0) + t.countLeaves + countLeavesList ts
end

mutual
/-- The node with every leaf node below it removed. -/
def Tree.removeLeaves : Tree → Tree
  | .node k m v ns => .node k m v (removeLeavesList ns)
/-- The list of nodes with every leaf node in it and below it removed. -/
def removeLeavesList : List Tree → List Tree
  | [] => []
  | t :: ts =>
    if t.kind = .leaf then removeLeavesList ts
    else t.removeLeaves :: removeLeavesList ts
end

mutual
/-- The node with every node more than `n` levels below it removed. -/
def Tree.prune : Nat → Tree → Tree
  | n, .node k m v ns => .node k m v (pruneList n ns)
/-- The list of nodes at level 1, cut after level `n`. -/
def pruneList : Nat → List Tree → List Tree
  | _, [] => []
  | 0, _ :: _ => []
  | n + 1, t :: ts => t.prune n :: pruneList (n + 1) ts
end

mutual
/-- The number of levels below a node. -/
def Tree.height : Tree → Nat
  | .node _ _ _ ns => heightList ns
/-- The number of levels of a list of nodes at level 1. -/
def heightList : List Tree → Nat
  | [] => 0
  | t :: ts => max (t.height + 1) (heightList ts)
end

mutual
/-- The node that mirrors an entry: a branch for a directory, with the mirrors
of its entries in listing order, and a leaf for anything else; labelled with
the entry's name, without meta value. -/
def Entry.mirror : Entry → Tree
  | .file n _ => .node .leaf none n []
  | .dir n _ es => .node .branch none n (mirrorList es)
/-- The mirrors of the entries of a listing, in listing order. -/
def mirrorList : List Entry → List Tree
  | [] => []
  | e :: es => e.mirror :: mirrorList es
end

/-- The branch that a call with `root = false` adds, before it is filled. -/
def freshBranch (fp : Filepath) (fl : Flags) (cur : String) (mode : Nat) : Tree :=
  if fl.flagPermissions then
    Tree.newMetaBranch mode (if fl.flagFullPathPrefix then cur else fp.Base cur)
  else Tree.newBranch (if fl.flagFullPathPrefix then cur else fp.Base cur)

/-- The label of the node added for a file `n` of the directory `cur`. -/
def fileLabel (fp : Filepath) (fl : Flags) (cur : String) (n : String) : String :=
  if fl.flagFullPathPrefix then fp.Join cur n else n

/-- The tree and the two counters of a loop result. -/
def treeAndCounts (r : Tree × State) : Tree × Int × Int :=
  (r.1, r.2.directoriesCount, r.2.filesCount)

/-- The node with more child nodes appended. -/
def Tree.extend : Tree → List Tree → Tree
  | .node k m v ns, cs => .node k m v (ns ++ cs)

/-- The flags of a run with `-a` and nothing else. -/
def Flags.allFiles : Flags := { Flags.default with flagPrintAllFiles := true }

/-! ## Sample inputs -/

/-- A directory with exactly one entry, the file "a". -/
def oneFileDir : Entry := .dir "." 493 [.file "a" 420]

/-- A listing with files, nested sub-directories and hidden entries. -/
def sampleFiles : List Entry :=
  [.file ".profile" 420,
   .file "README" 420,
   .dir "src" 493 [.file "main.go" 420, .dir "pkg" 493 [.file "x.go" 420]],
   .dir ".git" 493 [.file "config" 420]]

/-- A directory whose listing is `sampleFiles`. -/
def sampleDir : Entry := .dir "." 493 sampleFiles

/-- An environment in which "." is `oneFileDir` and no other path exists. -/
def oneFileEnv (render : Tree → String) : Env :=
  { args := [], stat := fun p => if p = "." then some oneFileDir else none,
    render := render, createOk := true, writeTreeOk := true, writeStatsOk := true }

/-! ## Unfolding the traversal -/

theorem rangeFiles_nil (fp : Filepath) (fl : Flags) (cur : String) (depth : Int) (len : Nat)
    (tree : Tree) (st : State) :
    rangeFiles fp fl cur depth len [] tree st = (tree, st) := rfl

theorem rangeFiles_cons_file (fp : Filepath) (fl : Flags) (cur : String) (depth : Int)
    (len : Nat) (n : String) (m : Nat) (rest : List Entry) (tree : Tree) (st : State) :
    rangeFiles fp fl cur depth len (.file n m :: rest) tree st =
      if depth = fl.flagDirLimit then
        rangeFiles fp fl cur depth len rest tree st
      else if fl.flagFileLimit ≥ 0 ∧ (len : Int) ≥ fl.flagFileLimit then
        if cur = "." then
          (tree, { st with stdout := st.stdout ++ [filelimitMessage len] })
        else (tree, st)
      else if !fl.flagPrintAllFiles && hasDotPrefix n then
        rangeFiles fp fl cur depth len rest tree st
      else if fl.flagDirsOnly then
        rangeFiles fp fl cur depth len rest tree { st with filesCount := st.filesCount + 1 }
      else if fl.flagPermissions then
        rangeFiles fp fl cur depth len rest
          (tree.AddMetaNode m (fileLabel fp fl cur n))
          { st with filesCount := st.filesCount + 1 }
      else
        rangeFiles fp fl cur depth len rest
          (tree.AddNode (fileLabel fp fl cur n))
          { st with filesCount := st.filesCount + 1 } := rfl

theorem rangeFiles_cons_dir (fp : Filepath) (fl : Flags) (cur : String) (depth : Int)
    (len : Nat) (n : String) (m : Nat) (es rest : List Entry) (tree : Tree) (st : State) :
    rangeFiles fp fl cur depth len (.dir n m es :: rest) tree st =
      if depth = fl.flagDirLimit then
        rangeFiles fp fl cur depth len rest tree st
      else if fl.flagFileLimit ≥ 0 ∧ (len : Int) ≥ fl.flagFileLimit then
        if cur = "." then
          (tree, { st with stdout := st.stdout ++ [filelimitMessage len] })
        else (tree, st)
      else if !fl.flagPrintAllFiles && hasDotPrefix n then
        rangeFiles fp fl cur depth len rest tree st
      else
        rangeFiles fp fl cur depth len rest
          (traverseFilesystem fp fl (fp.Join cur n) (.dir n m es) false tree (depth + 1)
            { st with directoriesCount := st.directoriesCount + 1 }).1
          (traverseFilesystem fp fl (fp.Join cur n) (.dir n m es) false tree (depth + 1)
            { st with directoriesCount := st.directoriesCount + 1 }).2 := rfl

theorem traverseFilesystem_root_file (fp : Filepath) (fl : Flags) (cur : String) (n : String)
    (m : Nat) (tree : Tree) (depth : Int) (st : State) :
    traverseFilesystem fp fl cur (.file n m) true tree depth st = (tree, st) := rfl

theorem traverseFilesystem_root_dir (fp : Filepath) (fl : Flags) (cur : String) (n : String)
    (m : Nat) (files : List Entry) (tree : Tree) (depth : Int) (st : State) :
    traverseFilesystem fp fl cur (.dir n m files) true tree depth st =
      rangeFiles fp fl cur depth files.length files tree st := rfl

theorem traverseFilesystem_sub_file (fp : Filepath) (fl : Flags) (cur : String) (n : String)
    (m : Nat) (tree : Tree) (depth : Int) (st : State) :
    traverseFilesystem fp fl cur (.file n m) false tree depth st =
      (tree.push (freshBranch fp fl cur m), st) := rfl

theorem traverseFilesystem_sub_dir (fp : Filepath) (fl : Flags) (cur : String) (n : String)
    (m : Nat) (files : List Entry) (tree : Tree) (depth : Int) (st : State) :
    traverseFilesystem fp fl cur (.dir n m files) false tree depth st =
      ((tree.push (rangeFiles fp fl cur depth files.length files
          (freshBranch fp fl cur m) st).1),
        (rangeFiles fp fl cur depth files.length files (freshBranch fp fl cur m) st).2) := rfl

/-! ## The state does not depend on `-d` -/

mutual
theorem traverse_state_dirsOnly (fp : Filepath) (fl : Flags) :
    ∀ (e : Entry) (cur : String) (root : Bool) (t t' : Tree) (d : Int) (st : State),
      (traverseFilesystem fp { fl with flagDirsOnly := true } cur e root t d st).2 =
      (traverseFilesystem fp { fl with flagDirsOnly := false } cur e root t' d st).2
  | .file n m, cur, root, t, t', d, st => by
    cases root <;> rfl
  | .dir n m es, cur, root, t, t', d, st => by
    cases root
    · rw [traverseFilesystem_sub_dir, traverseFilesystem_sub_dir]
      exact range_state_dirsOnly fp fl es cur d es.length _ _ st
    · rw [traverseFilesystem_root_dir, traverseFilesystem_root_dir]
      exact range_state_dirsOnly fp fl es cur d es.length _ _ st
theorem range_state_dirsOnly (fp : Filepath) (fl : Flags) :
    ∀ (es : List Entry) (cur : String) (d : Int) (len : Nat) (t t' : Tree) (st : State),
      (rangeFiles fp { fl with flagDirsOnly := true } cur d len es t st).2 =
      (rangeFiles fp { fl with flagDirsOnly := false } cur d len es t' st).2
  | [], cur, d, len, t, t', st => rfl
  | .file n m :: rest, cur, d, len, t, t', st => by
    rw [rangeFiles_cons_file, rangeFiles_cons_file]
    simp only []
    split_ifs <;> first | rfl | exact range_state_dirsOnly fp fl rest cur d len _ _ _
  | .dir n m es :: rest, cur, d, len, t, t', st => by
    rw [rangeFiles_cons_dir, rangeFiles_cons_dir]
    simp only []
    split_ifs <;> first
      | rfl
      | exact range_state_dirsOnly fp fl rest cur d len _ _ _
      | (rw [traverse_state_dirsOnly fp fl (.dir n m es) _ false t t']
         exact range_state_dirsOnly fp fl rest cur d len _ _ _)
end

/-! ## Counting nodes -/

theorem countBranchesList_append (xs ys : List Tree) :
    countBranchesList (xs ++ ys) = countBranchesList xs + countBranchesList ys := by
  induction xs with
  | nil => simp [countBranchesList]
  | cons x xs ih => simp [countBranchesList, ih]; omega

theorem countLeavesList_append (xs ys : List Tree) :
    countLeavesList (xs ++ ys) = countLeavesList xs + countLeavesList ys := by
  induction xs with
  | nil => simp [countLeavesList]
  | cons x xs ih => simp [countLeavesList, ih]; omega

theorem countBranches_push (t c : Tree) :
    (t.push c).countBranches =
      t.countBranches + (if c.kind = .branch then 1 else 0) + c.countBranches := by
  cases t with
  | node k m v ns =>
    simp [Tree.push, Tree.countBranches, countBranchesList_append, countBranchesList]
    omega

theorem countLeaves_push (t c : Tree) :
    (t.push c).countLeaves =
      t.countLeaves + (if c.kind = .leaf then 1 else 0) + c.countLeaves := by
  cases t with
  | node k m v ns =>
    simp [Tree.push, Tree.countLeaves, countLeavesList_append, countLeavesList]
    omega

theorem countBranches_AddNode (t : Tree) (v : String) :
    (t.AddNode v).countBranches = t.countBranches := by
  simp [Tree.AddNode, countBranches_push, Tree.kind, Tree.countBranches, countBranchesList]

theorem countLeaves_AddNode (t : Tree) (v : String) :
    (t.AddNode v).countLeaves = t.countLeaves + 1 := by
  simp [Tree.AddNode, countLeaves_push, Tree.kind, Tree.countLeaves, countLeavesList]

theorem countBranches_AddMetaNode (t : Tree) (m : Nat) (v : String) :
    (t.AddMetaNode m v).countBranches = t.countBranches := by
  simp [Tree.AddMetaNode, countBranches_push, Tree.kind, Tree.countBranches, countBranchesList]

theorem countLeaves_AddMetaNode (t : Tree) (m : Nat) (v : String) :
    (t.AddMetaNode m v).countLeaves = t.countLeaves + 1 := by
  simp [Tree.AddMetaNode, countLeaves_push, Tree.kind, Tree.countLeaves, countLeavesList]

theorem freshBranch_kind (fp : Filepath) (fl : Flags) (cur : String) (m : Nat) :
    (freshBranch fp fl cur m).kind = .branch := by
  unfold freshBranch; split <;> rfl

theorem freshBranch_countBranches (fp : Filepath) (fl : Flags) (cur : String) (m : Nat) :
    (freshBranch fp fl cur m).countBranches = 0 := by
  unfold freshBranch; split <;> rfl

theorem freshBranch_countLeaves (fp : Filepath) (fl : Flags) (cur : String) (m : Nat) :
    (freshBranch fp fl cur m).countLeaves = 0 := by
  unfold freshBranch; split <;> rfl

theorem push_kind (t c : Tree) : (t.push c).kind = t.kind := by
  cases t; rfl

mutual
theorem traverse_kind (fp : Filepath) (fl : Flags) :
    ∀ (e : Entry) (cur : String) (root : Bool) (t : Tree) (d : Int) (st : State),
      (traverseFilesystem fp fl cur e root t d st).1.kind = t.kind
  | .file n m, cur, root, t, d, st => by
    cases root
    · rw [traverseFilesystem_sub_file]; exact push_kind _ _
    · rfl
  | .dir n m es, cur, root, t, d, st => by
    cases root
    · rw [traverseFilesystem_sub_dir]; exact push_kind _ _
    · rw [traverseFilesystem_root_dir]; exact range_kind fp fl es cur d _ t st
theorem range_kind (fp : Filepath) (fl : Flags) :
    ∀ (es : List Entry) (cur : String) (d : Int) (len : Nat) (t : Tree) (st : State),
      (rangeFiles fp fl cur d len es t st).1.kind = t.kind
  | [], cur, d, len, t, st => rfl
  | .file n m :: rest, cur, d, len, t, st => by
    rw [rangeFiles_cons_file]
    split_ifs <;> first
      | rfl
      | exact range_kind fp fl rest cur d len _ _
      | (rw [range_kind fp fl rest cur d len _ _]; exact push_kind _ _)
  | .dir n m es :: rest, cur, d, len, t, st => by
    rw [rangeFiles_cons_dir]
    split_ifs <;> first
      | rfl
      | exact range_kind fp fl rest cur d len _ _
      | (rw [range_kind fp fl rest cur d len _ _]
         exact traverse_kind fp fl (.dir n m es) _ false t _ _)
end

mutual
theorem traverse_counts (fp : Filepath) (fl : Flags) (hd : fl.flagDirsOnly = false) :
    ∀ (e : Entry) (cur : String) (root : Bool) (t : Tree) (d : Int) (st : State),
      (traverseFilesystem fp fl cur e root t d st).2.directoriesCount + t.countBranches
          + (if root then 0 else 1)
        = st.directoriesCount + (traverseFilesystem fp fl cur e root t d st).1.countBranches ∧
      (traverseFilesystem fp fl cur e root t d st).2.filesCount + t.countLeaves
        = st.filesCount + (traverseFilesystem fp fl cur e root t d st).1.countLeaves
  | .file n m, cur, root, t, d, st => by
    cases root
    · rw [traverseFilesystem_sub_file]
      simp [countBranches_push, countLeaves_push, freshBranch_kind,
        freshBranch_countBranches, freshBranch_countLeaves]
      omega
    · rw [traverseFilesystem_root_file]; simp
  | .dir n m es, cur, root, t, d, st => by
    cases root
    · rw [traverseFilesystem_sub_dir]
      have h := range_counts fp fl hd es cur d es.length (freshBranch fp fl cur m) st
      have hk := range_kind fp fl es cur d es.length (freshBranch fp fl cur m) st
      simp only [countBranches_push, countLeaves_push, hk, freshBranch_kind,
        freshBranch_countBranches, freshBranch_countLeaves] at h ⊢
      simp at h ⊢
      omega
    · rw [traverseFilesystem_root_dir]
      have h := range_counts fp fl hd es cur d es.length t st
      simpa using h
theorem range_counts (fp : Filepath) (fl : Flags) (hd : fl.flagDirsOnly = false) :
    ∀ (es : List Entry) (cur : String) (d : Int) (len : Nat) (t : Tree) (st : State),
      (rangeFiles fp fl cur d len es t st).2.directoriesCount + t.countBranches
        = st.directoriesCount + (rangeFiles fp fl cur d len es t st).1.countBranches ∧
      (rangeFiles fp fl cur d len es t st).2.filesCount + t.countLeaves
        = st.filesCount + (rangeFiles fp fl cur d len es t st).1.countLeaves
  | [], cur, d, len, t, st => by simp [rangeFiles_nil]
  | .file n m :: rest, cur, d, len, t, st => by
    rw [rangeFiles_cons_file]
    split_ifs with h1 h2 h3 h4 h5 h6
    · exact range_counts fp fl hd rest cur d len t st
    · simp
    · simp
    · exact range_counts fp fl hd rest cur d len t st
    · simp [hd] at h5
    · have h := range_counts fp fl hd rest cur d len
        (t.AddMetaNode m (fileLabel fp fl cur n))
        { st with filesCount := st.filesCount + 1 }
      rw [countBranches_AddMetaNode, countLeaves_AddMetaNode] at h
      simp at h
      constructor <;> omega
    · have h := range_counts fp fl hd rest cur d len
        (t.AddNode (fileLabel fp fl cur n))
        { st with filesCount := st.filesCount + 1 }
      rw [countBranches_AddNode, countLeaves_AddNode] at h
      simp at h
      constructor <;> omega
  | .dir n m es :: rest, cur, d, len, t, st => by
    rw [rangeFiles_cons_dir]
    split_ifs with h1 h2 h3 h4
    · exact range_counts fp fl hd rest cur d len t st
    · simp
    · simp
    · exact range_counts fp fl hd rest cur d len t st
    · have h := range_counts fp fl hd rest cur d len
        (traverseFilesystem fp fl (fp.Join cur n) (.dir n m es) false t (d + 1)
            { st with directoriesCount := st.directoriesCount + 1 }).1
        (traverseFilesystem fp fl (fp.Join cur n) (.dir n m es) false t (d + 1)
            { st with directoriesCount := st.directoriesCount + 1 }).2
      have h' := traverse_counts fp fl hd (.dir n m es) (fp.Join cur n) false t (d + 1)
        { st with directoriesCount := st.directoriesCount + 1 }
      simp at h'
      constructor <;> omega
end

/-! ## Removing leaves -/

theorem removeLeavesList_append (xs ys : List Tree) :
    removeLeavesList (xs ++ ys) = removeLeavesList xs ++ removeLeavesList ys := by
  induction xs with
  | nil => simp [removeLeavesList]
  | cons x xs ih =>
    by_cases h : x.kind = .leaf <;> simp [removeLeavesList, h, ih]

theorem removeLeaves_push_branch (t c : Tree) (h : c.kind = .branch) :
    (t.push c).removeLeaves = t.removeLeaves.push c.removeLeaves := by
  cases t with
  | node k m v ns =>
    simp [Tree.push, Tree.removeLeaves, removeLeavesList_append, removeLeavesList, h]

theorem removeLeaves_AddNode (t : Tree) (v : String) :
    (t.AddNode v).removeLeaves = t.removeLeaves := by
  cases t with
  | node k m v ns =>
    simp [Tree.AddNode, Tree.push, Tree.removeLeaves, removeLeavesList_append,
      removeLeavesList, Tree.kind]

theorem removeLeaves_AddMetaNode (t : Tree) (m : Nat) (v : String) :
    (t.AddMetaNode m v).removeLeaves = t.removeLeaves := by
  cases t with
  | node k m v ns =>
    simp [Tree.AddMetaNode, Tree.push, Tree.removeLeaves, removeLeavesList_append,
      removeLeavesList, Tree.kind]

theorem removeLeaves_freshBranch (fp : Filepath) (fl : Flags) (cur : String) (m : Nat) :
    (freshBranch fp fl cur m).removeLeaves = freshBranch fp fl cur m := by
  unfold freshBranch; split <;> rfl

mutual
theorem countLeaves_removeLeaves : ∀ t : Tree, t.removeLeaves.countLeaves = 0
  | .node k m v ns => by
    simp only [Tree.removeLeaves, Tree.countLeaves]
    exact countLeavesList_removeLeavesList ns
theorem countLeavesList_removeLeavesList :
    ∀ ts : List Tree, countLeavesList (removeLeavesList ts) = 0
  | [] => rfl
  | .node k m v ns :: ts => by
    cases k
    · have h1 := countLeaves_removeLeaves (.node .branch m v ns)
      have h2 := countLeavesList_removeLeavesList ts
      simp [removeLeavesList, countLeavesList, Tree.kind, h2]
      simpa [Tree.removeLeaves, Tree.countLeaves] using h1
    · simpa [removeLeavesList, Tree.kind] using countLeavesList_removeLeavesList ts
end

mutual
theorem traverse_removeLeaves (fp : Filepath) (fl : Flags) :
    ∀ (e : Entry) (cur : String) (root : Bool) (t : Tree) (d : Int) (st st' : State),
      (traverseFilesystem fp { fl with flagDirsOnly := true } cur e root t.removeLeaves d st).1 =
      (traverseFilesystem fp { fl with flagDirsOnly := false } cur e root t d st').1.removeLeaves
  | .file n m, cur, root, t, d, st, st' => by
    cases root
    · rw [traverseFilesystem_sub_file, traverseFilesystem_sub_file]
      simp only []
      rw [removeLeaves_push_branch _ _ (freshBranch_kind _ _ _ _), removeLeaves_freshBranch]
      rfl
    · rfl
  | .dir n m es, cur, root, t, d, st, st' => by
    cases root
    · rw [traverseFilesystem_sub_dir, traverseFilesystem_sub_dir]
      simp only []
      rw [removeLeaves_push_branch _ _
        (by rw [range_kind]; exact freshBranch_kind _ _ _ _)]
      rw [← range_removeLeaves fp fl es cur d es.length _ st st', removeLeaves_freshBranch]
      rfl
    · rw [traverseFilesystem_root_dir, traverseFilesystem_root_dir]
      exact range_removeLeaves fp fl es cur d es.length t st st'
theorem range_removeLeaves (fp : Filepath) (fl : Flags) :
    ∀ (es : List Entry) (cur : String) (d : Int) (len : Nat) (t : Tree) (st st' : State),
      (rangeFiles fp { fl with flagDirsOnly := true } cur d len es t.removeLeaves st).1 =
      (rangeFiles fp { fl with flagDirsOnly := false } cur d len es t st').1.removeLeaves
  | [], cur, d, len, t, st, st' => rfl
  | .file n m :: rest, cur, d, len, t, st, st' => by
    rw [rangeFiles_cons_file, rangeFiles_cons_file]
    simp only []
    split_ifs <;> first
      | rfl
      | exact range_removeLeaves fp fl rest cur d len t _ _
      | (have h := range_removeLeaves fp fl rest cur d len
          (t.AddMetaNode m (fileLabel fp { fl with flagDirsOnly := false } cur n))
          { st with filesCount := st.filesCount + 1 }
          { st' with filesCount := st'.filesCount + 1 }
         rw [removeLeaves_AddMetaNode] at h
         exact h)
      | (have h := range_removeLeaves fp fl rest cur d len
          (t.AddNode (fileLabel fp { fl with flagDirsOnly := false } cur n))
          { st with filesCount := st.filesCount + 1 }
          { st' with filesCount := st'.filesCount + 1 }
         rw [removeLeaves_AddNode] at h
         exact h)
  | .dir n m es :: rest, cur, d, len, t, st, st' => by
    rw [rangeFiles_cons_dir, rangeFiles_cons_dir]
    simp only []
    split_ifs with h1 h2 h3 h4
    · exact range_removeLeaves fp fl rest cur d len t _ _
    · rfl
    · rfl
    · exact range_removeLeaves fp fl rest cur d len t _ _
    · rw [traverse_removeLeaves fp fl (.dir n m es) (fp.Join cur n) false t (d + 1)
        { st with directoriesCount := st.directoriesCount + 1 }
        { st' with directoriesCount := st'.directoriesCount + 1 }]
      exact range_removeLeaves fp fl rest cur d len _ _ _
end

/-! ## Cutting a tree at a level -/

theorem pruneList_zero (ts : List Tree) : pruneList 0 ts = [] := by
  cases ts <;> rfl

theorem pruneList_succ_cons (n : Nat) (t : Tree) (ts : List Tree) :
    pruneList (n + 1) (t :: ts) = t.prune n :: pruneList (n + 1) ts := rfl

theorem pruneList_append (n : Nat) (xs ys : List Tree) :
    pruneList n (xs ++ ys) = pruneList n xs ++ pruneList n ys := by
  cases n with
  | zero => simp [pruneList_zero]
  | succ n =>
    induction xs with
    | nil => simp [pruneList]
    | cons x xs ih => simp [pruneList_succ_cons, ih]

theorem prune_zero_push (t c : Tree) : (t.push c).prune 0 = t.prune 0 := by
  cases t with
  | node k m v ns => simp [Tree.push, Tree.prune, pruneList_zero]

theorem prune_succ_push (n : Nat) (t c : Tree) :
    (t.push c).prune (n + 1) = (t.prune (n + 1)).push (c.prune n) := by
  cases t with
  | node k m v ns =>
    simp [Tree.push, Tree.prune, pruneList_append, pruneList_succ_cons, pruneList]

theorem prune_freshBranch (k : Nat) (fp : Filepath) (fl : Flags) (cur : String) (m : Nat) :
    (freshBranch fp fl cur m).prune k = freshBranch fp fl cur m := by
  unfold freshBranch; split <;> simp [Tree.newMetaBranch, Tree.newBranch, Tree.prune, pruneList]

theorem prune_succ_AddNode (n : Nat) (t : Tree) (v : String) :
    (t.AddNode v).prune (n + 1) = (t.prune (n + 1)).AddNode v := by
  simp [Tree.AddNode, prune_succ_push, Tree.prune, pruneList]

theorem prune_succ_AddMetaNode (n : Nat) (t : Tree) (m : Nat) (v : String) :
    (t.AddMetaNode m v).prune (n + 1) = (t.prune (n + 1)).AddMetaNode m v := by
  simp [Tree.AddMetaNode, prune_succ_push, Tree.prune, pruneList]

mutual
theorem height_prune : ∀ (k : Nat) (t : Tree), (t.prune k).height ≤ k
  | k, .node kd m v ns => by
    simp only [Tree.prune, Tree.height]
    exact heightList_pruneList k ns
theorem heightList_pruneList : ∀ (k : Nat) (ts : List Tree), heightList (pruneList k ts) ≤ k
  | _, [] => by simp [pruneList, heightList]
  | 0, _ :: _ => by simp [pruneList, heightList]
  | k + 1, t :: ts => by
    rw [pruneList_succ_cons]
    simp only [heightList]
    have h1 := height_prune k t
    have h2 := heightList_pruneList (k + 1) ts
    omega
end

mutual
theorem traverse_prune_zero (fp : Filepath) (fl : Flags) :
    ∀ (e : Entry) (cur : String) (root : Bool) (t : Tree) (d : Int) (st : State),
      (traverseFilesystem fp fl cur e root t d st).1.prune 0 = t.prune 0
  | .file n m, cur, root, t, d, st => by
    cases root
    · rw [traverseFilesystem_sub_file]; exact prune_zero_push _ _
    · rfl
  | .dir n m es, cur, root, t, d, st => by
    cases root
    · rw [traverseFilesystem_sub_dir]; exact prune_zero_push _ _
    · rw [traverseFilesystem_root_dir]; exact range_prune_zero fp fl es cur d _ t st
theorem range_prune_zero (fp : Filepath) (fl : Flags) :
    ∀ (es : List Entry) (cur : String) (d : Int) (len : Nat) (t : Tree) (st : State),
      (rangeFiles fp fl cur d len es t st).1.prune 0 = t.prune 0
  | [], cur, d, len, t, st => rfl
  | .file n m :: rest, cur, d, len, t, st => by
    rw [rangeFiles_cons_file]
    split_ifs <;> first
      | rfl
      | exact range_prune_zero fp fl rest cur d len _ _
      | (rw [range_prune_zero fp fl rest cur d len _ _]; exact prune_zero_push _ _)
  | .dir n m es :: rest, cur, d, len, t, st => by
    rw [rangeFiles_cons_dir]
    split_ifs <;> first
      | rfl
      | exact range_prune_zero fp fl rest cur d len _ _
      | (rw [range_prune_zero fp fl rest cur d len _ _]
         exact traverse_prune_zero fp fl (.dir n m es) _ false t _ _)
end

theorem range_at_limit (fp : Filepath) (fl : Flags) (cur : String) (d : Int) (len : Nat)
    (h : d = fl.flagDirLimit) (es : List Entry) (t : Tree) (st : State) :
    rangeFiles fp fl cur d len es t st = (t, st) := by
  induction es with
  | nil => rfl
  | cons e es ih =>
    cases e with
    | file n m => rw [rangeFiles_cons_file, if_pos h]; exact ih
    | dir n m fs => rw [rangeFiles_cons_dir, if_pos h]; exact ih

mutual
theorem traverse_prune (fp : Filepath) (fl : Flags) (L : Int) :
    ∀ (e : Entry) (cur : String) (t : Tree) (k : Nat) (d : Int) (st st' : State),
      d + k = L → 0 ≤ d →
      (traverseFilesystem fp { fl with flagDirLimit := L } cur e false (t.prune (k + 1)) d st).1 =
      (traverseFilesystem fp { fl with flagDirLimit := -1 } cur e false t d st').1.prune (k + 1)
  | .file n m, cur, t, k, d, st, st', _, _ => by
    rw [traverseFilesystem_sub_file, traverseFilesystem_sub_file]
    simp only []
    rw [prune_succ_push, prune_freshBranch]
    rfl
  | .dir n m es, cur, t, k, d, st, st', hk, hd => by
    rw [traverseFilesystem_sub_dir, traverseFilesystem_sub_dir]
    simp only []
    rw [prune_succ_push]
    rw [← range_prune fp fl L es cur es.length _ k d st st' hk hd, prune_freshBranch]
    rfl
theorem range_prune (fp : Filepath) (fl : Flags) (L : Int) :
    ∀ (es : List Entry) (cur : String) (len : Nat) (t : Tree) (k : Nat) (d : Int)
      (st st' : State), d + k = L → 0 ≤ d →
      (rangeFiles fp { fl with flagDirLimit := L } cur d len es (t.prune k) st).1 =
      (rangeFiles fp { fl with flagDirLimit := -1 } cur d len es t st').1.prune k
  | [], cur, len, t, k, d, st, st', _, _ => rfl
  | .file n m :: rest, cur, len, t, 0, d, st, st', hk, _ => by
    rw [range_at_limit fp _ cur d len (by simpa using hk), range_prune_zero]
  | .dir n m es :: rest, cur, len, t, 0, d, st, st', hk, _ => by
    rw [range_at_limit fp _ cur d len (by simpa using hk), range_prune_zero]
  | .file n m :: rest, cur, len, t, k + 1, d, st, st', hk, hd => by
    rw [rangeFiles_cons_file, rangeFiles_cons_file]
    simp only []
    have h1 : ¬ d = L := by push_cast at hk; omega
    have h2 : ¬ d = -1 := by omega
    rw [if_neg h1, if_neg h2]
    split_ifs <;> first
      | rfl
      | exact range_prune fp fl L rest cur len t (k + 1) d _ _ hk hd
      | (rw [← prune_succ_AddMetaNode]
         exact range_prune fp fl L rest cur len _ (k + 1) d _ _ hk hd)
      | (rw [← prune_succ_AddNode]
         exact range_prune fp fl L rest cur len _ (k + 1) d _ _ hk hd)
  | .dir n m es :: rest, cur, len, t, k + 1, d, st, st', hk, hd => by
    rw [rangeFiles_cons_dir, rangeFiles_cons_dir]
    simp only []
    have h1 : ¬ d = L := by push_cast at hk; omega
    have h2 : ¬ d = -1 := by omega
    rw [if_neg h1, if_neg h2]
    split_ifs <;> first
      | rfl
      | exact range_prune fp fl L rest cur len t (k + 1) d _ _ hk hd
      | (rw [traverse_prune fp fl L (.dir n m es) (fp.Join cur n) t k (d + 1)
          { st with directoriesCount := st.directoriesCount + 1 }
          { st' with directoriesCount := st'.directoriesCount + 1 }
          (by push_cast at hk; omega) (by omega)]
         exact range_prune fp fl L rest cur len _ (k + 1) d _ _ hk hd)
end

/-! ## Hidden entries -/

theorem range_hidden_head (fp : Filepath) (fl : Flags) (ha : fl.flagPrintAllFiles = false)
    (cur : String) (d : Int) (len : Nat) (e : Entry) (he : hasDotPrefix e.Name = true)
    (post : List Entry) (t : Tree) (st : State) :
    (rangeFiles fp fl cur d len (e :: post) t st).1 = (rangeFiles fp fl cur d len post t st).1 ∧
    (rangeFiles fp fl cur d len (e :: post) t st).2.directoriesCount =
      (rangeFiles fp fl cur d len post t st).2.directoriesCount ∧
    (rangeFiles fp fl cur d len (e :: post) t st).2.filesCount =
      (rangeFiles fp fl cur d len post t st).2.filesCount := by
  have hbreak : d ≠ fl.flagDirLimit → (fl.flagFileLimit ≥ 0 ∧ (len : Int) ≥ fl.flagFileLimit) →
      (rangeFiles fp fl cur d len post t st).1 = t ∧
      (rangeFiles fp fl cur d len post t st).2.directoriesCount = st.directoriesCount ∧
      (rangeFiles fp fl cur d len post t st).2.filesCount = st.filesCount := by
    intro h1 h2
    cases post with
    | nil => exact ⟨rfl, rfl, rfl⟩
    | cons p ps =>
      cases p with
      | file n m => rw [rangeFiles_cons_file, if_neg h1, if_pos h2]; split <;> exact ⟨rfl, rfl, rfl⟩
      | dir n m fs => rw [rangeFiles_cons_dir, if_neg h1, if_pos h2]; split <;> exact ⟨rfl, rfl, rfl⟩
  have hh : (!fl.flagPrintAllFiles && hasDotPrefix e.Name) = true := by simp [ha, he]
  cases e with
  | file n m =>
    rw [rangeFiles_cons_file]
    by_cases h1 : d = fl.flagDirLimit
    · rw [if_pos h1]; exact ⟨rfl, rfl, rfl⟩
    · rw [if_neg h1]
      by_cases h2 : fl.flagFileLimit ≥ 0 ∧ (len : Int) ≥ fl.flagFileLimit
      · rw [if_pos h2]
        obtain ⟨a, b, c⟩ := hbreak h1 h2
        rw [a, b, c]; split <;> exact ⟨rfl, rfl, rfl⟩
      · have hh' : (!fl.flagPrintAllFiles && hasDotPrefix n) = true := hh
        rw [if_neg h2, if_pos hh']; exact ⟨rfl, rfl, rfl⟩
  | dir n m fs =>
    rw [rangeFiles_cons_dir]
    by_cases h1 : d = fl.flagDirLimit
    · rw [if_pos h1]; exact ⟨rfl, rfl, rfl⟩
    · rw [if_neg h1]
      by_cases h2 : fl.flagFileLimit ≥ 0 ∧ (len : Int) ≥ fl.flagFileLimit
      · rw [if_pos h2]
        obtain ⟨a, b, c⟩ := hbreak h1 h2
        rw [a, b, c]; split <;> exact ⟨rfl, rfl, rfl⟩
      · have hh' : (!fl.flagPrintAllFiles && hasDotPrefix n) = true := hh
        rw [if_neg h2, if_pos hh']; exact ⟨rfl, rfl, rfl⟩

theorem range_cons_congr (fp : Filepath) (fl : Flags) (cur : String) (d : Int) (len : Nat)
    (p : Entry) (xs ys : List Entry)
    (h : ∀ (t : Tree) (st : State),
      treeAndCounts (rangeFiles fp fl cur d len xs t st) =
      treeAndCounts (rangeFiles fp fl cur d len ys t st))
    (t : Tree) (st : State) :
    treeAndCounts (rangeFiles fp fl cur d len (p :: xs) t st) =
    treeAndCounts (rangeFiles fp fl cur d len (p :: ys) t st) := by
  cases p with
  | file n m =>
    rw [rangeFiles_cons_file, rangeFiles_cons_file]
    split_ifs <;> first | rfl | exact h _ _
  | dir n m fs =>
    rw [rangeFiles_cons_dir, rangeFiles_cons_dir]
    split_ifs <;> first | rfl | exact h _ _

/-! ## Mirroring the directory tree -/

theorem extend_nil (t : Tree) : t.extend [] = t := by
  cases t; simp [Tree.extend]

theorem AddNode_extend (t : Tree) (v : String) (cs : List Tree) :
    (t.AddNode v).extend cs = t.extend (.node .leaf none v [] :: cs) := by
  cases t; simp [Tree.AddNode, Tree.push, Tree.extend]

theorem push_extend (t c : Tree) (cs : List Tree) :
    (t.push c).extend cs = t.extend (c :: cs) := by
  cases t; simp [Tree.push, Tree.extend]

theorem validNames_cons (e : Entry) (es : List Entry) :
    validNames (e :: es) = (decide (ValidName e.Name) && e.validBelow && validNames es) := rfl

mutual
theorem traverse_mirror (fp : Filepath) (fl : Flags)
    (hfp : ∀ p n, ValidName n → fp.Base (fp.Join p n) = n)
    (ha : fl.flagPrintAllFiles = true) (hd : fl.flagDirsOnly = false)
    (hf : fl.flagFullPathPrefix = false) (hfl : fl.flagFileLimit = -1)
    (hL : fl.flagDirLimit = -1) (hp : fl.flagPermissions = false) :
    ∀ (e : Entry) (p : String) (t : Tree) (d : Int) (st : State),
      0 ≤ d → e.IsDir = true → ValidName e.Name → e.validBelow = true →
      (traverseFilesystem fp fl (fp.Join p e.Name) e false t d st).1 = t.push e.mirror
  | .file n m, p, t, d, st, _, hdir, _, _ => by
    simp [Entry.IsDir] at hdir
  | .dir n m es, p, t, d, st, hd0, _, hn, hv => by
    rw [traverseFilesystem_sub_dir]
    simp only [freshBranch, hp, hf, Entry.Name, hfp p n hn]
    rw [range_mirror fp fl hfp ha hd hf hfl hL hp es _ d es.length _ st hd0 hv]
    rfl
theorem range_mirror (fp : Filepath) (fl : Flags)
    (hfp : ∀ p n, ValidName n → fp.Base (fp.Join p n) = n)
    (ha : fl.flagPrintAllFiles = true) (hd : fl.flagDirsOnly = false)
    (hf : fl.flagFullPathPrefix = false) (hfl : fl.flagFileLimit = -1)
    (hL : fl.flagDirLimit = -1) (hp : fl.flagPermissions = false) :
    ∀ (es : List Entry) (cur : String) (d : Int) (len : Nat) (t : Tree) (st : State),
      0 ≤ d → validNames es = true →
      (rangeFiles fp fl cur d len es t st).1 = t.extend (mirrorList es)
  | [], cur, d, len, t, st, _, _ => by
    rw [rangeFiles_nil]; exact (extend_nil t).symm
  | .file n m :: rest, cur, d, len, t, st, hd0, hv => by
    rw [validNames_cons] at hv
    simp only [Bool.and_eq_true, decide_eq_true_eq] at hv
    rw [rangeFiles_cons_file]
    have h1 : ¬ d = fl.flagDirLimit := by rw [hL]; omega
    have h2 : ¬ (fl.flagFileLimit ≥ 0 ∧ (len : Int) ≥ fl.flagFileLimit) := by rw [hfl]; omega
    rw [if_neg h1, if_neg h2]
    simp only [ha, hd, hp, fileLabel, hf]
    simp only [Bool.not_true, Bool.false_and, Bool.false_eq_true, if_false]
    rw [range_mirror fp fl hfp ha hd hf hfl hL hp rest cur d len _ _ hd0 hv.2, AddNode_extend]
    rfl
  | .dir n m es :: rest, cur, d, len, t, st, hd0, hv => by
    rw [validNames_cons] at hv
    simp only [Bool.and_eq_true, decide_eq_true_eq] at hv
    rw [rangeFiles_cons_dir]
    have h1 : ¬ d = fl.flagDirLimit := by rw [hL]; omega
    have h2 : ¬ (fl.flagFileLimit ≥ 0 ∧ (len : Int) ≥ fl.flagFileLimit) := by rw [hfl]; omega
    rw [if_neg h1, if_neg h2]
    simp only [ha]
    simp only [Bool.not_true, Bool.false_and, Bool.false_eq_true, if_false]
    rw [range_mirror fp fl hfp ha hd hf hfl hL hp rest cur d len _ _ hd0 hv.2]
    have ht := traverse_mirror fp fl hfp ha hd hf hfl hL hp (.dir n m es) cur t (d + 1)
      { st with directoriesCount := st.directoriesCount + 1 } (by omega) rfl hv.1.1 hv.1.2
    simp only [Entry.Name] at ht
    rw [ht, push_extend]
    rfl
end

/-! ## `Base` after `Join` on Unix -/

theorem splitSlash_ne_nil (l : List Char) : splitSlash l ≠ [] := by
  cases l with
  | nil => simp [splitSlash]
  | cons c cs =>
    by_cases h : c = '/'
    · simp [splitSlash, h]
    · simp only [splitSlash, h, if_false]
      split <;> simp

theorem splitSlash_cons_of_ne (c : Char) (cs : List Char) (h : ¬ c = '/') :
    splitSlash (c :: cs) =
      (match splitSlash cs with
        | [] => [[c]]
        | x :: xs => (c :: x) :: xs) := by
  simp only [splitSlash, h, if_false]

theorem splitSlash_append_slash (a b : List Char) :
    splitSlash (a ++ '/' :: b) = splitSlash a ++ splitSlash b := by
  induction a with
  | nil => simp [splitSlash]
  | cons c cs ih =>
    by_cases h : c = '/'
    · simp [splitSlash, h, ih]
    · have e1 := splitSlash_cons_of_ne c (cs ++ '/' :: b) h
      have e2 := splitSlash_cons_of_ne c cs h
      rw [List.cons_append]
      rw [e1, e2, ih]
      cases hs : splitSlash cs with
      | nil => exact absurd hs (splitSlash_ne_nil cs)
      | cons x xs => simp

theorem splitSlash_of_not_mem (n : List Char) (h : '/' ∉ n) : splitSlash n = [n] := by
  induction n with
  | nil => rfl
  | cons c cs ih =>
    simp only [List.mem_cons, not_or] at h
    have hc : c ≠ '/' := fun e => h.1 e.symm
    simp [splitSlash, hc, ih h.2]

theorem cleanStep_valid (rooted : Bool) (stack : List (List Char)) (n : List Char)
    (h1 : n ≠ []) (h2 : n ≠ ['.']) (h3 : n ≠ ['.', '.']) :
    cleanStep rooted stack n = n :: stack := by
  simp [cleanStep, h1, h2, h3]

theorem joinSlash_append_singleton (l : List (List Char)) (n : List Char) (h : l ≠ []) :
    joinSlash (l ++ [n]) = joinSlash l ++ '/' :: n := by
  induction l with
  | nil => exact absurd rfl h
  | cons x xs ih =>
    cases xs with
    | nil => simp [joinSlash]
    | cons y ys =>
      have := ih (by simp)
      simp only [List.cons_append] at this ⊢
      simp [joinSlash, this]

theorem baseChars_name (n : List Char) (h1 : n ≠ []) (h2 : '/' ∉ n) : baseChars n = n := by
  have hr : n.reverse ≠ [] := by simpa using h1
  have hall : ∀ c ∈ n.reverse, c ≠ '/' := by
    intro c hc e; subst e; exact h2 (by simpa using hc)
  have hd : n.reverse.dropWhile (fun c => c = '/') = n.reverse := by
    cases hn : n.reverse with
    | nil => rfl
    | cons c cs =>
      have : c ≠ '/' := hall c (by simp [hn])
      simp [List.dropWhile, this]
  have ht : n.reverse.takeWhile (fun c => c ≠ '/') = n.reverse := by
    rw [List.takeWhile_eq_self_iff]
    intro c hc; simpa using hall c hc
  simp only [baseChars, h1, if_false, hd, ht, hr, List.reverse_reverse]

theorem baseChars_slash_name (y n : List Char) (h1 : n ≠ []) (h2 : '/' ∉ n) :
    baseChars (y ++ '/' :: n) = n := by
  have hr : n.reverse ≠ [] := by simpa using h1
  have hall : ∀ c ∈ n.reverse, c ≠ '/' := by
    intro c hc e; subst e; exact h2 (by simpa using hc)
  have hrev : (y ++ '/' :: n).reverse = n.reverse ++ '/' :: y.reverse := by simp
  have hd : (n.reverse ++ '/' :: y.reverse).dropWhile (fun c => c = '/') =
      n.reverse ++ '/' :: y.reverse := by
    cases hn : n.reverse with
    | nil => exact absurd hn hr
    | cons c cs =>
      have : c ≠ '/' := hall c (by simp [hn])
      simp [List.dropWhile, this]
  have ht : (n.reverse ++ '/' :: y.reverse).takeWhile (fun c => c ≠ '/') = n.reverse := by
    rw [List.takeWhile_append_of_pos (by intro c hc; simpa using hall c hc)]
    simp
  have hne : y ++ '/' :: n ≠ [] := by simp
  simp only [baseChars, hne, if_false, hrev, hd, ht, hr, List.reverse_reverse]

theorem cleanChars_join_name (a n : List Char) (ha : a ≠ []) (h1 : n ≠ []) (h2 : '/' ∉ n)
    (h3 : n ≠ ['.']) (h4 : n ≠ ['.', '.']) :
    cleanChars (a ++ '/' :: n) = n ∨ ∃ y, cleanChars (a ++ '/' :: n) = y ++ '/' :: n := by
  cases a with
  | nil => exact absurd rfl ha
  | cons c cs =>
    have hsplit : splitSlash (c :: cs ++ '/' :: n) = splitSlash (c :: cs) ++ [n] := by
      rw [splitSlash_append_slash, splitSlash_of_not_mem n h2]
    simp only [List.cons_append] at hsplit
    simp only [cleanChars, List.cons_append, hsplit, List.foldl_append, List.foldl_cons,
      List.foldl_nil, cleanStep_valid _ _ n h1 h3 h4, List.reverse_cons]
    generalize (List.foldl (cleanStep (decide (c = '/'))) [] (splitSlash (c :: cs))).reverse = s
    by_cases hs : s = []
    · subst hs
      by_cases hc : c = '/'
      · right; exact ⟨[], by simp [hc, joinSlash]⟩
      · left; simp [hc, joinSlash, h1]
    · right
      rw [joinSlash_append_singleton s n hs]
      by_cases hc : c = '/'
      · exact ⟨'/' :: joinSlash s, by simp [hc]⟩
      · exact ⟨joinSlash s, by simp [hc]⟩

theorem cleanChars_name (n : List Char) (h1 : n ≠ []) (h2 : '/' ∉ n)
    (h3 : n ≠ ['.']) (h4 : n ≠ ['.', '.']) : cleanChars n = n := by
  cases n with
  | nil => exact absurd rfl h1
  | cons c cs =>
    have hc : c ≠ '/' := fun e => h2 (by simp [e])
    simp only [cleanChars, splitSlash_of_not_mem _ h2, List.foldl_cons, List.foldl_nil,
      cleanStep_valid _ _ _ h1 h3 h4]
    simp [hc, joinSlash]

theorem unix_Base_Join (p n : String) (h : ValidName n) :
    unixFilepath.Base (unixFilepath.Join p n) = n := by
  obtain ⟨h1, h2, h3, h4⟩ := h
  have hn : n ≠ "" := fun e => h1 (by rw [e])
  simp only [unixFilepath]
  by_cases hp : p = ""
  · subst hp
    simp only [ne_eq, not_true_eq_false, if_false, hn, not_false_eq_true, if_true]
    rw [cleanChars_name _ h1 h2 h3 h4, baseChars_name _ h1 h2]
  · have hp' : p.data ≠ [] := fun e => hp (String.ext e)
    simp only [ne_eq, hp, not_false_eq_true, if_true]
    rcases cleanChars_join_name p.data n.data hp' h1 h2 h3 h4 with e | ⟨y, e⟩
    · rw [e, baseChars_name _ h1 h2]
    · rw [e, baseChars_slash_name _ _ h1 h2]

/-! ## The claims -/

/-- C1, as the code behaves: with `--filelimit 1`, a directory "." that contains
exactly one entry (not more than 1) has that entry left out of the tree and of
the counters, and the "exceeds filelimit" line is printed. -/
theorem filelimit_equal_count_not_listed :
    traverseFilesystem unixFilepath { Flags.default with flagFileLimit := 1 } "." oneFileDir
        true Tree.New 0 State.init =
      (Tree.New,
        { directoriesCount := 0, filesCount := 0, stdout := [filelimitMessage 1] }) := by
  rfl

/-- C2: with depth limit `n` the tree built from the root is the tree built
without depth limit (`-L` at -1), cut after level `n`, where the root's direct
entries are at level 1; and it has at most `n` levels.  This holds for every
`n`, so for every `n ≥ 1`. -/
theorem depth_limit_is_prune (fp : Filepath) (fl : Flags) (cur : String) (e : Entry) (n : Nat)
    (st stNoLimit : State) :
    (traverseFilesystem fp { fl with flagDirLimit := n } cur e true Tree.New 0 st).1 =
      (traverseFilesystem fp { fl with flagDirLimit := -1 } cur e true Tree.New 0 stNoLimit).1.prune n
    ∧ (traverseFilesystem fp { fl with flagDirLimit := n } cur e true Tree.New 0 st).1.height ≤ n := by
  have key : (traverseFilesystem fp { fl with flagDirLimit := n } cur e true Tree.New 0 st).1 =
      (traverseFilesystem fp { fl with flagDirLimit := -1 } cur e true Tree.New 0
        stNoLimit).1.prune n := by
    cases e with
    | file nm m =>
      rw [traverseFilesystem_root_file, traverseFilesystem_root_file]
      simp [Tree.New, Tree.prune, pruneList]
    | dir nm m es =>
      rw [traverseFilesystem_root_dir, traverseFilesystem_root_dir]
      have h := range_prune fp fl n es cur es.length Tree.New n 0 st stNoLimit (by simp)
        (le_refl 0)
      have hnew : Tree.New.prune n = Tree.New := by simp [Tree.New, Tree.prune, pruneList]
      rw [hnew] at h
      exact h
  refine ⟨key, ?_⟩
  rw [key]
  exact height_prune n _

/-- C3: when `-a` is not set, an entry of a directory listing whose name begins
with "." contributes nothing: the loop over the listing gives the same tree and
the same two counters as the loop over the listing without that entry (and so
without its descendants), the value of `len(files)` being the same. -/
theorem hidden_entry_skipped (fp : Filepath) (fl : Flags) (ha : fl.flagPrintAllFiles = false)
    (cur : String) (depth : Int) (len : Nat) (e : Entry) (he : hasDotPrefix e.Name = true)
    (before after : List Entry) (tree : Tree) (st : State) :
    (rangeFiles fp fl cur depth len (before ++ e :: after) tree st).1 =
      (rangeFiles fp fl cur depth len (before ++ after) tree st).1 ∧
    (rangeFiles fp fl cur depth len (before ++ e :: after) tree st).2.directoriesCount =
      (rangeFiles fp fl cur depth len (before ++ after) tree st).2.directoriesCount ∧
    (rangeFiles fp fl cur depth len (before ++ e :: after) tree st).2.filesCount =
      (rangeFiles fp fl cur depth len (before ++ after) tree st).2.filesCount := by
  have key : ∀ (t : Tree) (s : State),
      treeAndCounts (rangeFiles fp fl cur depth len (before ++ e :: after) t s) =
      treeAndCounts (rangeFiles fp fl cur depth len (before ++ after) t s) := by
    induction before with
    | nil =>
      intro t s
      obtain ⟨a, b, c⟩ := range_hidden_head fp fl ha cur depth len e he after t s
      simp only [treeAndCounts, List.nil_append, a, b, c]
    | cons p ps ih =>
      intro t s
      exact range_cons_congr fp fl cur depth len p _ _ ih t s
  have h := key tree st
  simp only [treeAndCounts, Prod.mk.injEq] at h
  exact h

/-- Witness of C3: the hidden directory ".git" between "README" and "src". -/
theorem hidden_entry_skipped_witness :
    Flags.default.flagPrintAllFiles = false ∧
    hasDotPrefix (Entry.dir ".git" 493 [.file "config" 420]).Name = true ∧
    (rangeFiles unixFilepath Flags.default "." 0 3
        ([.file "README" 420] ++ .dir ".git" 493 [.file "config" 420] :: [.dir "src" 493 []])
        Tree.New State.init).1 =
      (rangeFiles unixFilepath Flags.default "." 0 3
        ([.file "README" 420] ++ [.dir "src" 493 []]) Tree.New State.init).1 ∧
    (rangeFiles unixFilepath Flags.default "." 0 3
        ([.file "README" 420] ++ .dir ".git" 493 [.file "config" 420] :: [.dir "src" 493 []])
        Tree.New State.init).2.directoriesCount =
      (rangeFiles unixFilepath Flags.default "." 0 3
        ([.file "README" 420] ++ [.dir "src" 493 []]) Tree.New State.init).2.directoriesCount ∧
    (rangeFiles unixFilepath Flags.default "." 0 3
        ([.file "README" 420] ++ .dir ".git" 493 [.file "config" 420] :: [.dir "src" 493 []])
        Tree.New State.init).2.filesCount =
      (rangeFiles unixFilepath Flags.default "." 0 3
        ([.file "README" 420] ++ [.dir "src" 493 []]) Tree.New State.init).2.filesCount :=
  ⟨rfl, rfl,
    hidden_entry_skipped unixFilepath Flags.default rfl "." 0 3
      (.dir ".git" 493 [.file "config" 420]) rfl [.file "README" 420] [.dir "src" 493 []]
      Tree.New State.init⟩

/-- C4: with `-d` the tree built from the root has no leaf (file) node, and it is
the tree built without `-d`, all other flags equal, with every leaf node removed. -/
theorem dirs_only_removes_leaves (fp : Filepath) (fl : Flags) (cur : String) (e : Entry)
    (depth : Int) (st : State) :
    (traverseFilesystem fp { fl with flagDirsOnly := true } cur e true Tree.New depth
        st).1.countLeaves = 0 ∧
    (traverseFilesystem fp { fl with flagDirsOnly := true } cur e true Tree.New depth st).1 =
      (traverseFilesystem fp { fl with flagDirsOnly := false } cur e true Tree.New depth
        st).1.removeLeaves := by
  have key := traverse_removeLeaves fp fl e cur true Tree.New depth st st
  have hnew : Tree.New.removeLeaves = Tree.New := rfl
  rw [hnew] at key
  refine ⟨?_, key⟩
  rw [key]
  exact countLeaves_removeLeaves _

/-- C5: with `-d` off, starting from both counters at 0, after the traversal from
the root `directoriesCount` is the number of branch nodes added to the tree and
`filesCount` is the number of leaf nodes added to it. -/
theorem counts_match_tree (fp : Filepath) (fl : Flags) (hd : fl.flagDirsOnly = false)
    (cur : String) (e : Entry) (tree : Tree) :
    (traverseFilesystem fp fl cur e true tree 0 State.init).2.directoriesCount =
      ((traverseFilesystem fp fl cur e true tree 0 State.init).1.countBranches : Int)
        - tree.countBranches ∧
    (traverseFilesystem fp fl cur e true tree 0 State.init).2.filesCount =
      ((traverseFilesystem fp fl cur e true tree 0 State.init).1.countLeaves : Int)
        - tree.countLeaves := by
  have h := traverse_counts fp fl hd e cur true tree 0 State.init
  have h0 : State.init.directoriesCount = 0 := rfl
  have h1 : State.init.filesCount = 0 := rfl
  simp only [h0, h1, if_true, add_zero, zero_add] at h
  constructor <;> omega

/-- Witness of C5: the default flags on `sampleDir`. -/
theorem counts_match_tree_witness :
    Flags.default.flagDirsOnly = false ∧
    (traverseFilesystem unixFilepath Flags.default "." sampleDir true Tree.New 0
        State.init).2.directoriesCount =
      ((traverseFilesystem unixFilepath Flags.default "." sampleDir true Tree.New 0
        State.init).1.countBranches : Int) - Tree.New.countBranches ∧
    (traverseFilesystem unixFilepath Flags.default "." sampleDir true Tree.New 0
        State.init).2.filesCount =
      ((traverseFilesystem unixFilepath Flags.default "." sampleDir true Tree.New 0
        State.init).1.countLeaves : Int) - Tree.New.countLeaves :=
  ⟨rfl, counts_match_tree unixFilepath Flags.default rfl "." sampleDir Tree.New⟩

/-- C6: `printFileSystemStats` returns the decimal rendering of `directoriesCount`,
then " directory, " if it is 1 and " directories, " otherwise, then the decimal
rendering of `filesCount`, then " file" if it is 1 and " files" otherwise, and
leaves the state unchanged; with both counters 0 the text is
"0 directories, 0 files". -/
theorem printFileSystemStats_text (st : State) :
    printFileSystemStats st =
      (Itoa st.directoriesCount
          ++ (if st.directoriesCount = 1 then " directory, " else " directories, ")
          ++ Itoa st.filesCount
          ++ (if st.filesCount = 1 then " file" else " files"), st) ∧
    (printFileSystemStats { st with directoriesCount := 0, filesCount := 0 }).1 =
      "0 directories, 0 files" := by
  constructor
  · unfold printFileSystemStats WriteString
    split_ifs <;> simp [String.append_assoc]
  · rfl

/-- C7: with `-a` and no other flag, the traversal from the root appends to the
root node exactly the mirror of the directory's listing: one branch per
directory and one leaf per other entry, labelled with the entry's name, in
listing order, recursively; the root node itself is kept as it is. -/
theorem all_files_mirror (fp : Filepath)
    (hfp : ∀ p n, ValidName n → fp.Base (fp.Join p n) = n)
    (cur : String) (name : String) (mode : Nat) (files : List Entry)
    (hv : validNames files = true) (tree : Tree) (st : State) :
    (traverseFilesystem fp Flags.allFiles cur (.dir name mode files) true tree 0 st).1 =
      tree.extend (mirrorList files) := by
  rw [traverseFilesystem_root_dir]
  exact range_mirror fp Flags.allFiles hfp rfl rfl rfl rfl rfl rfl files cur 0 files.length
    tree st (le_refl 0) hv

/-- Witness of C7: Unix paths and the listing of `sampleDir`. -/
theorem all_files_mirror_witness :
    validNames sampleFiles = true ∧
    (traverseFilesystem unixFilepath Flags.allFiles "." (.dir "." 493 sampleFiles) true
        Tree.New 0 State.init).1 =
      Tree.New.extend (mirrorList sampleFiles) :=
  ⟨by decide, all_files_mirror unixFilepath unix_Base_Join "." "." 493 sampleFiles (by decide)
    Tree.New State.init⟩

/-- C8, as the code behaves: with `-L -2` (a level that is not greater than 0)
`main` does not report an invalid level; it traverses "." and exits with
status 0. -/
theorem main_negative_level_traverses (render : Tree → String) :
    main unixFilepath { Flags.default with flagDirLimit := -2 }
        { flagVersion := false, flagWriteToFile := "" } (oneFileEnv render) =
      { stdout := [render (.node .branch none "." [.node .leaf none "a" []]) ++ "\n",
                   "0 directories, 1 file\n"],
        file := none, exit := 0 } := by
  rfl

/-- C9: the state after the traversal (both counters, and the text printed) is
the same with `-d` set as with `-d` unset, all other flags equal. -/
theorem dirs_only_same_counts (fp : Filepath) (fl : Flags) (cur : String) (e : Entry)
    (root : Bool) (tree : Tree) (depth : Int) (st : State) :
    (traverseFilesystem fp { fl with flagDirsOnly := true } cur e root tree depth st).2 =
      (traverseFilesystem fp { fl with flagDirsOnly := false } cur e root tree depth st).2 :=
  traverse_state_dirsOnly fp fl e cur root tree tree depth st

end Fstree
